import Mathlib

/-!
Verification development for the LM-Studio-Chatbot repository.

The repository has two Python source files:
  * `lmstudio_kokoro_speak_stream.py` — a streaming chat/TTS pipeline built around
    the pure function `split_into_speakable_chunks` and two queue-driven workers
    (`tts_worker`, `audio_player`);
  * `server.py` — an HTTP variant whose synthesis core is `synthesize_audio`,
    with voice resolution (`get_voice_info`) and a per-language pipeline cache
    (`get_pipeline`).

This file shallowly embeds those functions over `List Char` / `String`, with
external collaborators (the TTS engine, the chat backend, the audio device)
modelled as oracles, and proves or refutes the frozen spec claims about them.
-/

/-! ## Chunker: `split_into_speakable_chunks` (lmstudio_kokoro_speak_stream.py lines 23-44)

The Python code splits the buffer with `re.split(r"([.!?]+|\n)")`, which returns
an alternating list `[text0, delim0, text1, delim1, ..., textN]`: delimiters are
maximal runs of sentence punctuation `.!?` or a single newline, captured between
the text pieces.  `reScan` below is that scan: it walks the characters carrying
the current text accumulator `cur` and the pending punctuation run `run` (both
kept reversed), emitting the completed (text, delimiter) parts in order;
`reFlush` emits the final parts for the end of input, and `reSplit` is the full
`re.split` result. -/

/-- Does the character end a sentence, i.e. match the class `[.!?]` of
`SENT_END_RE = re.compile(r"([.!?]+|\n)")`? -/
def isSentEnd (c : Char) : Bool :=
  c == '.' || c == '!' || c == '?'

/-- Scan of `re.split(r"([.!?]+|\n)", buffer)`: processes the remaining
characters given the reversed text accumulator `cur` and the reversed pending
punctuation run `run`; returns the emitted parts (alternating text/delimiter,
always an even number of them) together with the final `(cur, run)` state. -/
def reScan : List Char → List Char → List Char → List (List Char) × List Char × List Char
  | cur, run, [] => ([], cur, run)
  | cur, run, c :: cs =>
    if isSentEnd c then
      reScan cur (c :: run) cs
    else
      match run with
      | [] =>
        if c = '\n' then
          (cur.reverse :: ['\n'] :: (reScan [] [] cs).1, (reScan [] [] cs).2)
        else
          reScan (c :: cur) [] cs
      | r :: rs =>
        if c = '\n' then
          (cur.reverse :: (r :: rs).reverse :: [] :: ['\n'] :: (reScan [] [] cs).1,
           (reScan [] [] cs).2)
        else
          (cur.reverse :: (r :: rs).reverse :: (reScan [c] [] cs).1,
           (reScan [c] [] cs).2)

/-- Parts emitted for the end of the input from the final scan state: the text
after the last delimiter, and — when a punctuation run is still pending — that
run as a delimiter followed by the empty trailing text `re.split` produces. -/
def reFlush (cur run : List Char) : List (List Char) :=
  match run with
  | [] => [cur.reverse]
  | r :: rs => [cur.reverse, (r :: rs).reverse, []]

/-- Full result of `re.split(r"([.!?]+|\n)", buffer)` on the buffer's
characters: an odd-length alternating list text, delim, ..., text. -/
def reSplit (l : List Char) : List (List Char) :=
  (reScan [] [] l).1 ++ reFlush (reScan [] [] l).2.1 (reScan [] [] l).2.2

/-- Characters stripped by Python's default `str.strip()` — exactly the
characters for which `str.isspace()` is true. -/
def pyIsSpace (c : Char) : Bool :=
  c == ' ' || c == '\t' || c == '\n' || c == '\r' || c == '\x0b' || c == '\x0c' ||
  c == '\x1c' || c == '\x1d' || c == '\x1e' || c == '\x1f' || c == '\u0085' ||
  c == '\u00a0' || c == '\u1680' || c == '\u2000' || c == '\u2001' || c == '\u2002' ||
  c == '\u2003' || c == '\u2004' || c == '\u2005' || c == '\u2006' || c == '\u2007' ||
  c == '\u2008' || c == '\u2009' || c == '\u200a' || c == '\u2028' || c == '\u2029' ||
  c == '\u202f' || c == '\u205f' || c == '\u3000'

/-- Python `str.strip()` on a character list: drop whitespace from both ends. -/
def pyStripL (l : List Char) : List Char :=
  ((l.dropWhile pyIsSpace).reverse.dropWhile pyIsSpace).reverse

/-- Python `str.strip()` on a `String`. -/
def pyStripS (s : String) : String :=
  String.mk (pyStripL s.data)

/-- The chunk-emitting loop of `split_into_speakable_chunks`: walk the
alternating (text, delimiter) pairs of the `re.split` parts; for each pair the
candidate chunk is `text_part + ender`, appended (stripped) only when its strip
is non-empty.  A trailing unpaired part is not consumed (the Python loop runs
`for i in range(0, len(parts) - 1, 2)`). -/
def chunksOfParts : List (List Char) → List (List Char)
  | t :: e :: rest =>
    if pyStripL (t ++ e) = [] then chunksOfParts rest
    else pyStripL (t ++ e) :: chunksOfParts rest
  | _ => []

/-- The remainder of `split_into_speakable_chunks`: the Python code returns
`parts[-1]` when the part count is odd (the trailing partial sentence), else
the empty string. -/
def remainderOfParts (parts : List (List Char)) : List Char :=
  if parts.length % 2 = 1 then parts.getLast?.getD [] else []

/-- `split_into_speakable_chunks` on character lists. -/
def splitChars (l : List Char) : List (List Char) × List Char :=
  (chunksOfParts (reSplit l), remainderOfParts (reSplit l))

/-- `split_into_speakable_chunks(buffer)` from `lmstudio_kokoro_speak_stream.py`
(lines 25-44): returns `(chunks_to_speak, remainder)`. -/
def split_into_speakable_chunks (buffer : String) : List String × String :=
  ((splitChars buffer.data).1.map String.mk, String.mk (splitChars buffer.data).2)

/-- The untrimmed `text_part + ender` pieces the chunk loop walks over —
every emitted chunk is the strip of one of these, and concatenating them (plus
the trailing remainder part) gives back the whole `re.split` input. -/
def piecesOfParts : List (List Char) → List (List Char)
  | t :: e :: rest => (t ++ e) :: piecesOfParts rest
  | _ => []

/-! ## Incremental feeding (the conversation loop's chunker protocol)

`main` (lines 101-129) keeps a `buffer` string; on each streamed token it runs
`buffer += token; chunks, buffer = split_into_speakable_chunks(buffer)` and
enqueues the chunks.  `feedOne`/`feedTokens` model that protocol on character
lists, accumulating all chunks emitted across the calls. -/

/-- Does the list end with a sentence-punctuation character `.!?`. -/
def endsPunct (l : List Char) : Bool :=
  match l.getLast? with
  | some c => isSentEnd c
  | none => false

/-- Does the list start with a sentence-punctuation character `.!?`. -/
def startsPunct (l : List Char) : Bool :=
  match l.head? with
  | some c => isSentEnd c
  | none => false

/-- Does the list end with a delimiter character of the split pattern
(`.`, `!`, `?`, or a newline). -/
def endsDelim (l : List Char) : Bool :=
  match l.getLast? with
  | some c => isSentEnd c || c == '\n'
  | none => false

/-- One step of the caller protocol: split the previous remainder concatenated
with the newly arrived token, appending the emitted chunks. -/
def feedOne (st : List (List Char) × List Char) (t : List Char) :
    List (List Char) × List Char :=
  (st.1 ++ (splitChars (st.2 ++ t)).1, (splitChars (st.2 ++ t)).2)

/-- Feed a partition of a buffer token by token, starting from an empty buffer,
returning all chunks emitted across the calls and the final remainder. -/
def feedTokens (toks : List (List Char)) : List (List Char) × List Char :=
  toks.foldl feedOne ([], [])

/-- Token boundaries that do not fall inside a maximal run of sentence
punctuation: scanning the partition left to right, no token may begin with a
`.!?` character while the text accumulated so far ends with one. -/
def seamsOK : List Char → List (List Char) → Bool
  | _, [] => true
  | pre, t :: ts => !(endsPunct pre && startsPunct t) && seamsOK (pre ++ t) ts

/-! ## Predicates used to state chunk-shape properties -/

/-- No character of the list is a delimiter of the split pattern. -/
def NoDelim (l : List Char) : Prop :=
  ∀ c ∈ l, isSentEnd c = false ∧ c ≠ '\n'

/-- Every character of the list is sentence punctuation `.!?`. -/
def AllPunct (l : List Char) : Prop :=
  ∀ c ∈ l, isSentEnd c = true

instance (l : List Char) : Decidable (NoDelim l) :=
  inferInstanceAs (Decidable (∀ c ∈ l, isSentEnd c = false ∧ c ≠ '\n'))

instance (l : List Char) : Decidable (AllPunct l) :=
  inferInstanceAs (Decidable (∀ c ∈ l, isSentEnd c = true))

/-- A delimiter captured by `([.!?]+|\n)`: a non-empty run of sentence
punctuation, or a single newline. -/
def IsDelimRun (e : List Char) : Prop :=
  (e ≠ [] ∧ AllPunct e) ∨ e = ['\n']

/-- Well-formed `re.split` part prefix: (text, delimiter) pairs whose second
components are captured delimiters. -/
inductive PairsWF : List (List Char) → Prop where
  | nil : PairsWF []
  | pair (t e : List Char) (rest : List (List Char)) :
      IsDelimRun e → PairsWF rest → PairsWF (t :: e :: rest)

/-! ## Synthesis Adapter: `server.py`

`get_voice_info` (lines 89-94), `get_pipeline` (lines 97-104) and
`synthesize_audio` (lines 125-164) are embedded with explicit state:
`pipelines` is the per-language pipeline cache (an association list of language
code to pipeline instance id, ids drawn from `nextId`), `calls` logs every
engine invocation `pipeline(clean_text, voice=...)` in order, and `evictions`
counts the `pipelines.pop(lang_code, None)` calls that actually removed an
entry.  The engine itself is an oracle mapping the invocation index to either
an exception message or the list of audio segments it yields. -/

/-- Audio samples, abstracted. -/
abbrev Audio := List Int

/-- Outcome of one `pipeline(clean_text, voice=...)` engine invocation:
an exception message, or the audio segments the engine yields. -/
abbrev EngineOracle := Nat → Except String (List Audio)

/-- The failure captured by the `except` block of `synthesize_audio`: an
engine exception, or the `RuntimeError("Kokoro returned empty audio.")` raised
when the concatenation of segments is empty. -/
inductive EngineFailure where
  | engineError (msg : String)
  | emptyAudio
deriving DecidableEq

/-- Errors surfaced by the synthesis path of `server.py`: `ValueError` for an
unknown voice, `ValueError` for empty input text, and the final `RuntimeError`
(`SynthesisFailed`) raised after the retry, carrying its cause. -/
inductive SynthErr where
  | unknownVoice (voice : String)
  | emptyInput
  | synthesisFailed (cause : EngineFailure)
deriving DecidableEq

/-- Mutable module state of `server.py` that `synthesize_audio` touches. -/
structure ServerState where
  pipelines : List (String × Nat)
  nextId : Nat
  calls : List (Nat × String × String)
  evictions : Nat
deriving DecidableEq

/-- Resolution of the requested voice name performed by `get_voice_info`:
`(requested or DEFAULT_VOICE or "").strip()` — Python `or` takes the first
truthy (non-empty, non-None) operand. -/
def resolve_requested_voice (default : String) (requested : Option String) : String :=
  pyStripS (match requested with
    | some r => if r ≠ "" then r else (if default ≠ "" then default else "")
    | none => if default ≠ "" then default else "")

/-- `get_voice_info(requested)` (server.py lines 89-94): resolve the voice via
the catalog, failing with `ValueError` (`UnknownVoice`) when absent. -/
def get_voice_info (catalog : List (String × String)) (default : String)
    (requested : Option String) : Except SynthErr (String × String) :=
  let voice := resolve_requested_voice default requested
  match catalog.lookup voice with
  | some lang => .ok (voice, lang)
  | none => .error (.unknownVoice voice)

/-- `get_pipeline(lang_code)` (server.py lines 97-104): return the cached
pipeline for the language, creating and caching a fresh one on a miss. -/
def get_pipeline (lang_code : String) (st : ServerState) : Nat × ServerState :=
  match st.pipelines.lookup lang_code with
  | some p => (p, st)
  | none =>
    (st.nextId,
     { st with pipelines := (lang_code, st.nextId) :: st.pipelines,
               nextId := st.nextId + 1 })

/-- `pipelines.pop(lang_code, None)`: remove the cache entry if present
(counting the removal as an eviction), otherwise leave the state unchanged. -/
def popPipeline (lang_code : String) (st : ServerState) : ServerState :=
  if (st.pipelines.lookup lang_code).isSome then
    { st with pipelines := st.pipelines.filter (fun p => p.1 ≠ lang_code),
              evictions := st.evictions + 1 }
  else st

/-- Body of the `try` block of one attempt (server.py lines 136-151): obtain
the pipeline, invoke the engine once (logging the call), keep the non-empty
segments, fail with the empty-audio `RuntimeError` when nothing remains, else
return the concatenation. -/
def attemptSynthesis (engine : EngineOracle) (lang_code voice text : String)
    (st : ServerState) : Except EngineFailure Audio × ServerState :=
  let pst := get_pipeline lang_code st
  let st1 : ServerState := { pst.2 with calls := pst.2.calls ++ [(pst.1, voice, text)] }
  match engine pst.2.calls.length with
  | .error msg => (.error (.engineError msg), st1)
  | .ok segs =>
    if (segs.filter (fun a => a ≠ [])) = [] then (.error .emptyAudio, st1)
    else (.ok (segs.filter (fun a => a ≠ [])).flatten, st1)

/-- `synthesize_audio(text, voice_name)` (server.py lines 125-164): resolve the
voice, reject empty text, then run the `for attempt in (0, 1)` loop — on a
failure the cached pipeline for the language is popped; attempt 0 continues to
the retry, and a failure on attempt 1 pops again and surfaces the error with
the second failure as cause. -/
def synthesize_audio (catalog : List (String × String)) (default : String)
    (engine : EngineOracle) (text : String) (voice_name : Option String)
    (st : ServerState) : Except SynthErr (Audio × String) × ServerState :=
  match get_voice_info catalog default voice_name with
  | .error e => (.error e, st)
  | .ok (voice, lang_code) =>
    if pyStripS text = "" then (.error .emptyInput, st)
    else
      match attemptSynthesis engine lang_code voice (pyStripS text) st with
      | (.ok audio, st1) => (.ok (audio, voice), st1)
      | (.error _, st1) =>
        match attemptSynthesis engine lang_code voice (pyStripS text) (popPipeline lang_code st1) with
        | (.ok audio, st3) => (.ok (audio, voice), st3)
        | (.error e1, st3) => (.error (.synthesisFailed e1), popPipeline lang_code st3)

/-- Does the engine invocation with the given call index fail — either by
raising, or by yielding only empty segments (which `synthesize_audio` turns
into the empty-audio `RuntimeError` inside the same `try`)? -/
def engineCallFails (engine : EngineOracle) (idx : Nat) : Prop :=
  match engine idx with
  | .error _ => True
  | .ok segs => segs.filter (fun a => a ≠ []) = []

/-- The `EngineFailure` the except-block captures for a failing invocation. -/
def engineFailureOf (engine : EngineOracle) (idx : Nat) : EngineFailure :=
  match engine idx with
  | .error msg => .engineError msg
  | .ok _ => .emptyAudio

/-! ## Pipeline Coordinator: the two worker loops (lmstudio_kokoro_speak_stream.py)

Each worker dequeues from its queue until the `None` sentinel.  The queues are
modelled as the sequence of items a worker dequeues, in order; synthesis is an
oracle returning `none` when `next(pipeline(text, voice=...))` raises (the
`except` branch that logs and continues). -/

/-- `tts_worker` (lines 71-82): dequeue text until the sentinel, forwarding
the sentinel downstream; synthesize each text, enqueueing the audio on success
and logging-and-continuing on failure. -/
def tts_worker (synth : String → Option Audio) : List (Option String) → List (Option Audio)
  | [] => []
  | none :: _ => [none]
  | some t :: rest =>
    match synth t with
    | some a => some a :: tts_worker synth rest
    | none => tts_worker synth rest

/-- `audio_player` (lines 56-63): dequeue audio until the sentinel, playing
each buffer to completion before dequeuing the next; returns the buffers in
the order they are played. -/
def audio_player : List (Option Audio) → List Audio
  | [] => []
  | none :: _ => []
  | some a :: rest => a :: audio_player rest

/-! ## Conversation turn: `main` (lmstudio_kokoro_speak_stream.py lines 93-134)

One turn of the chat loop, with the streamed backend call modelled as a list
of events: content tokens, possibly cut short by a raised exception.  The
user message is appended before the `try` block; the assistant message is
appended inside it, after the stream is fully consumed. -/

/-- One event observed while iterating the streaming chat completion. -/
inductive StreamEvent where
  | token (s : String)
  | failure (msg : String)
deriving DecidableEq

/-- The `for event in stream` loop (lines 111-122): accumulate `full` and
`buffer`, splitting the buffer after every token and collecting the enqueued
chunks; a raised exception aborts the loop with `ok = false`. -/
def stream_turn : String → String → List String → List StreamEvent →
    String × String × List String × Bool
  | full, buffer, spoken, [] => (full, buffer, spoken, true)
  | full, buffer, spoken, .token t :: rest =>
    stream_turn (full ++ t) (split_into_speakable_chunks (buffer ++ t)).2
      (spoken ++ (split_into_speakable_chunks (buffer ++ t)).1) rest
  | full, buffer, spoken, .failure _ :: _ => (full, buffer, spoken, false)

/-- One conversation turn (lines 98-134): append the user message, stream the
completion; on success append the assistant message and flush a non-empty
remainder to the speech queue, on failure print the error and append nothing.
Returns the message list and the chunks sent to the speech queue. -/
def run_turn (messages : List (String × String)) (user : String)
    (events : List StreamEvent) : List (String × String) × List String :=
  let messages := messages ++ [("user", user)]
  match stream_turn "" "" [] events with
  | (full, buffer, spoken, true) =>
    (messages ++ [("assistant", full)],
     if pyStripS buffer ≠ "" then spoken ++ [pyStripS buffer] else spoken)
  | (_, _, spoken, false) => (messages, spoken)

/-! ## Structural lemmas about the split scan -/

/-- Induction principle consuming a list two elements at a time, matching the
pairwise walks over the `re.split` parts. -/
theorem twoStepInduction {α : Type} {P : List α → Prop} (h0 : P [])
    (h1 : ∀ a, P [a]) (h2 : ∀ a b l, P l → P (a :: b :: l)) : ∀ l, P l
  | [] => h0
  | [a] => h1 a
  | a :: b :: l => h2 a b l (twoStepInduction h0 h1 h2 l)

/-- Scanning a concatenation: the parts of the first half are emitted first,
and the second half is scanned from the state the first half ends in. -/
theorem reScan_append (l₁ l₂ : List Char) : ∀ cur run,
    reScan cur run (l₁ ++ l₂) =
      ((reScan cur run l₁).1 ++
        (reScan (reScan cur run l₁).2.1 (reScan cur run l₁).2.2 l₂).1,
       (reScan (reScan cur run l₁).2.1 (reScan cur run l₁).2.2 l₂).2) := by
  induction l₁ with
  | nil => intro cur run; simp [reScan]
  | cons c cs ih =>
    intro cur run
    cases h : isSentEnd c with
    | true => simp [reScan, h, ih]
    | false =>
      cases run with
      | nil =>
        by_cases hc : c = '\n'
        · subst hc; simp [reScan, h, ih]
        · simp [reScan, h, hc, ih]
      | cons r rs =>
        by_cases hc : c = '\n'
        · subst hc; simp [reScan, h, ih]
        · simp [reScan, h, hc, ih]

/-- The scan emits parts in (text, delimiter) pairs: always an even number. -/
theorem reScan_fst_length_even (l : List Char) : ∀ cur run,
    (reScan cur run l).1.length % 2 = 0 := by
  induction l with
  | nil => intro cur run; simp [reScan]
  | cons c cs ih =>
    intro cur run
    cases h : isSentEnd c with
    | true => simpa [reScan, h] using ih cur (c :: run)
    | false =>
      cases run with
      | nil =>
        by_cases hc : c = '\n'
        · subst hc
          have := ih [] []
          simp [reScan, h]
          omega
        · simpa [reScan, h, hc] using ih (c :: cur) []
      | cons r rs =>
        by_cases hc : c = '\n'
        · subst hc
          have := ih [] []
          simp [reScan, h]
          omega
        · have := ih [c] []
          simp [reScan, h, hc]
          omega

/-- Concatenating everything the scan produces — the emitted parts, then the
pending text and the pending punctuation run — recovers the input. -/
theorem reScan_flatten (l : List Char) : ∀ cur run,
    (reScan cur run l).1.flatten ++
      (reScan cur run l).2.1.reverse ++ (reScan cur run l).2.2.reverse
      = cur.reverse ++ run.reverse ++ l := by
  induction l with
  | nil => intro cur run; simp [reScan]
  | cons c cs ih =>
    intro cur run
    cases h : isSentEnd c with
    | true =>
      have := ih cur (c :: run)
      simp only [reScan, h, if_true] at this ⊢
      simp only [List.reverse_cons] at this
      simp [this, List.append_assoc]
    | false =>
      cases run with
      | nil =>
        by_cases hc : c = '\n'
        · subst hc
          have := ih [] []
          simp only [List.flatten_nil, List.append_nil, List.reverse_nil,
            List.nil_append] at this
          simp [reScan, h, this]
        · have := ih (c :: cur) []
          simp only [List.reverse_cons, List.reverse_nil, List.append_nil] at this
          simp [reScan, h, hc, this, List.append_assoc]
      | cons r rs =>
        by_cases hc : c = '\n'
        · subst hc
          have := ih [] []
          simp only [List.flatten_nil, List.append_nil, List.reverse_nil,
            List.nil_append] at this
          simp [reScan, h, this, List.append_assoc]
        · have := ih [c] []
          simp only [List.reverse_cons, List.reverse_nil, List.append_nil,
            List.nil_append] at this
          simp [reScan, h, hc, this, List.append_assoc]

/-- Concatenating the flush parts gives pending text then pending run. -/
theorem reFlush_flatten (cur run : List Char) :
    (reFlush cur run).flatten = cur.reverse ++ run.reverse := by
  cases run <;> simp [reFlush]

/-- The flush contributes an odd number of parts (one or three). -/
theorem reFlush_length_odd (cur run : List Char) :
    (reFlush cur run).length % 2 = 1 := by
  cases run <;> simp [reFlush]

/-- The flush is never empty. -/
theorem reFlush_ne_nil (cur run : List Char) : reFlush cur run ≠ [] := by
  cases run <;> simp [reFlush]

/-- `re.split` with a capturing group always returns an odd number of parts. -/
theorem reSplit_length_odd (l : List Char) : (reSplit l).length % 2 = 1 := by
  have h1 := reScan_fst_length_even l [] []
  have h2 := reFlush_length_odd (reScan [] [] l).2.1 (reScan [] [] l).2.2
  simp only [reSplit, List.length_append]
  omega

/-- Concatenating all `re.split` parts recovers the input buffer. -/
theorem reSplit_flatten (l : List Char) : (reSplit l).flatten = l := by
  have h := reScan_flatten l [] []
  simp only [List.reverse_nil, List.nil_append] at h
  simp [reSplit, List.flatten_append, reFlush_flatten, ← List.append_assoc, h]

/-- The remainder is the trailing part of the flush: the pending text when no
punctuation run is pending at the end of the buffer. -/
theorem remainderOfParts_reSplit_run_nil (l : List Char)
    (h : (reScan [] [] l).2.2 = []) :
    remainderOfParts (reSplit l) = (reScan [] [] l).2.1.reverse := by
  rw [remainderOfParts, if_pos (reSplit_length_odd l)]
  simp [reSplit, reFlush, h, List.getLast?_append]

/-- The remainder is empty when a punctuation run is still pending at the end
of the buffer (the buffer then ends on that run). -/
theorem remainderOfParts_reSplit_run_cons (l : List Char)
    (h : (reScan [] [] l).2.2 ≠ []) :
    remainderOfParts (reSplit l) = [] := by
  obtain ⟨r, rs, hr⟩ : ∃ r rs, (reScan [] [] l).2.2 = r :: rs := by
    cases hx : (reScan [] [] l).2.2 with
    | nil => exact absurd hx h
    | cons r rs => exact ⟨r, rs, rfl⟩
  rw [remainderOfParts, if_pos (reSplit_length_odd l)]
  simp [reSplit, reFlush, hr, List.getLast?_append]

/-- The chunk loop distributes over a concatenation after an even number of
parts (a whole number of (text, delimiter) pairs). -/
theorem chunksOfParts_append (A B : List (List Char)) (h : A.length % 2 = 0) :
    chunksOfParts (A ++ B) = chunksOfParts A ++ chunksOfParts B := by
  induction A using twoStepInduction with
  | h0 => simp [chunksOfParts]
  | h1 a => simp at h
  | h2 a b l ih =>
    have hl : l.length % 2 = 0 := by simp at h; omega
    by_cases hs : pyStripL (a ++ b) = [] <;>
      simp [chunksOfParts, hs, ih hl]

/-- The piece walk distributes over a concatenation after an even number of
parts. -/
theorem piecesOfParts_append (A B : List (List Char)) (h : A.length % 2 = 0) :
    piecesOfParts (A ++ B) = piecesOfParts A ++ piecesOfParts B := by
  induction A using twoStepInduction with
  | h0 => simp [piecesOfParts]
  | h1 a => simp at h
  | h2 a b l ih =>
    have hl : l.length % 2 = 0 := by simp at h; omega
    simp [piecesOfParts, ih hl]

/-- For a whole number of pairs, the pieces concatenate to the same text as
the parts themselves. -/
theorem piecesOfParts_flatten (A : List (List Char)) (h : A.length % 2 = 0) :
    (piecesOfParts A).flatten = A.flatten := by
  induction A using twoStepInduction with
  | h0 => simp [piecesOfParts]
  | h1 a => simp at h
  | h2 a b l ih =>
    have hl : l.length % 2 = 0 := by simp at h; omega
    simp [piecesOfParts, ih hl]

/-- The chunk loop emits exactly the strips of the pieces, dropping the ones
that strip to nothing. -/
theorem chunksOfParts_eq_filter (parts : List (List Char)) :
    chunksOfParts parts =
      ((piecesOfParts parts).map pyStripL).filter (fun x => x ≠ []) := by
  induction parts using twoStepInduction with
  | h0 => simp [chunksOfParts, piecesOfParts]
  | h1 a => simp [chunksOfParts, piecesOfParts]
  | h2 a b l ih =>
    by_cases hs : pyStripL (a ++ b) = [] <;>
      simp [chunksOfParts, piecesOfParts, hs, ih, List.filter_cons]

/-- Rejoining the untrimmed pieces and the remainder reconstructs the buffer. -/
theorem splitChars_reconstruct (l : List Char) :
    (piecesOfParts (reSplit l)).flatten ++ (splitChars l).2 = l := by
  have hev := reScan_fst_length_even l [] []
  have hfl := reScan_flatten l [] []
  simp only [List.reverse_nil, List.nil_append] at hfl
  cases hr : (reScan [] [] l).2.2 with
  | nil =>
    simp only [splitChars]
    rw [remainderOfParts_reSplit_run_nil l hr]
    rw [reSplit, hr]
    simp only [reFlush]
    rw [piecesOfParts_append _ _ hev, List.flatten_append,
      piecesOfParts_flatten _ hev]
    simp only [piecesOfParts, List.flatten_nil, List.append_nil]
    rw [hr] at hfl
    simpa using hfl
  | cons r rs =>
    simp only [splitChars]
    rw [remainderOfParts_reSplit_run_cons l (by simp [hr])]
    rw [reSplit, hr]
    simp only [reFlush]
    rw [piecesOfParts_append _ _ hev, List.flatten_append,
      piecesOfParts_flatten _ hev]
    simp only [piecesOfParts, List.flatten_cons, List.flatten_nil,
      List.append_nil]
    rw [hr] at hfl
    simpa [List.append_assoc] using hfl

/-- Unfolding helper: the characters of a packed string. -/
theorem data_mk (l : List Char) : (String.mk l).data = l := rfl

/-- C1: for every buffer B, rejoining the result of split(B) — the emitted
chunks with their original delimiters (i.e. the untrimmed text+delimiter
pieces the loop walks), followed by the remainder — reconstructs B exactly;
each emitted chunk is the surrounding-whitespace trim of its piece, pieces
whose trim is empty being dropped.  No text is lost or duplicated at a
boundary. -/
theorem claim_C1_split_rejoin_reconstructs (B : String) :
    String.join ((piecesOfParts (reSplit B.data)).map String.mk)
        ++ (split_into_speakable_chunks B).2 = B
    ∧ (split_into_speakable_chunks B).1
      = (((piecesOfParts (reSplit B.data)).map pyStripL).filter
          (fun x => x ≠ [])).map String.mk := by
  constructor
  · apply String.ext
    simp only [String.data_append, String.data_join, List.map_map,
      Function.comp_def, data_mk, List.map_id', split_into_speakable_chunks]
    exact splitChars_reconstruct B.data
  · simp [split_into_speakable_chunks, splitChars, chunksOfParts_eq_filter]

/-! ## Scan state invariants -/

/-- The pending text accumulator never contains a delimiter character. -/
theorem reScan_cur_noDelim (l : List Char) : ∀ cur run, NoDelim cur →
    NoDelim (reScan cur run l).2.1 := by
  induction l with
  | nil => intro cur run hcur; simpa [reScan] using hcur
  | cons c cs ih =>
    intro cur run hcur
    cases h : isSentEnd c with
    | true => simpa [reScan, h] using ih cur (c :: run) hcur
    | false =>
      cases run with
      | nil =>
        by_cases hc : c = '\n'
        · subst hc
          simpa [reScan, h] using ih [] [] (by simp [NoDelim])
        · refine ?_
          have : NoDelim (c :: cur) := by
            intro d hd
            rcases List.mem_cons.mp hd with rfl | hd
            · exact ⟨h, hc⟩
            · exact hcur d hd
          simpa [reScan, h, hc] using ih (c :: cur) [] this
      | cons r rs =>
        by_cases hc : c = '\n'
        · subst hc
          simpa [reScan, h] using ih [] [] (by simp [NoDelim])
        · have : NoDelim [c] := by
            intro d hd
            rcases List.mem_singleton.mp hd with rfl
            exact ⟨h, hc⟩
          simpa [reScan, h, hc] using ih [c] [] this

/-- The pending punctuation run contains only sentence punctuation. -/
theorem reScan_run_allPunct (l : List Char) : ∀ cur run, AllPunct run →
    AllPunct (reScan cur run l).2.2 := by
  induction l with
  | nil => intro cur run hrun; simpa [reScan] using hrun
  | cons c cs ih =>
    intro cur run hrun
    cases h : isSentEnd c with
    | true =>
      have : AllPunct (c :: run) := by
        intro d hd
        rcases List.mem_cons.mp hd with rfl | hd
        · exact h
        · exact hrun d hd
      simpa [reScan, h] using ih cur (c :: run) this
    | false =>
      cases run with
      | nil =>
        by_cases hc : c = '\n'
        · subst hc
          simpa [reScan, h] using ih [] [] (by simp [AllPunct])
        · simpa [reScan, h, hc] using ih (c :: cur) [] (by simp [AllPunct])
      | cons r rs =>
        by_cases hc : c = '\n'
        · subst hc
          simpa [reScan, h] using ih [] [] (by simp [AllPunct])
        · simpa [reScan, h, hc] using ih [c] [] (by simp [AllPunct])

/-- Scanning pure text (no delimiter characters) accumulates it and emits
nothing. -/
theorem reScan_noDelim_input (t : List Char) : ∀ cur, NoDelim t →
    reScan cur [] t = ([], t.reverse ++ cur, []) := by
  induction t with
  | nil => intro cur _; simp [reScan]
  | cons c cs ih =>
    intro cur hnd
    obtain ⟨h, hc⟩ := hnd c (by simp)
    have hcs : NoDelim cs := fun d hd => hnd d (List.mem_cons_of_mem _ hd)
    simp [reScan, h, hc, ih (c :: cur) hcs, List.append_assoc]

/-- A non-empty pending run at the end of the scan means the buffer ended
with a sentence-punctuation character. -/
theorem reScan_endsPunct_of_run (l : List Char) : ∀ cur run, l ≠ [] →
    (reScan cur run l).2.2 ≠ [] →
    ∃ c, l.getLast? = some c ∧ isSentEnd c = true := by
  induction l with
  | nil => intro cur run h _; exact absurd rfl h
  | cons c cs ih =>
    intro cur run _ hrun
    cases cs with
    | nil =>
      cases h : isSentEnd c with
      | true => exact ⟨c, rfl, h⟩
      | false =>
        exfalso
        apply hrun
        cases run with
        | nil =>
          by_cases hc : c = '\n'
          · subst hc; simp [reScan, h]
          · simp [reScan, h, hc]
        | cons r rs =>
          by_cases hc : c = '\n'
          · subst hc; simp [reScan, h]
          · simp [reScan, h, hc]
    | cons d ds =>
      have step : (reScan cur run (c :: d :: ds)).2.2 =
          (reScan (reScan cur run [c]).2.1 (reScan cur run [c]).2.2 (d :: ds)).2.2 := by
        have := reScan_append [c] (d :: ds) cur run
        simpa using congrArg (fun x => x.2.2) this
      rw [step] at hrun
      obtain ⟨e, he, hpe⟩ :=
        ih (reScan cur run [c]).2.1 (reScan cur run [c]).2.2 (by simp) hrun
      exact ⟨e, by simpa [List.getLast?_cons_cons] using he, hpe⟩

/-- A buffer ending with sentence punctuation leaves a pending run. -/
theorem reScan_run_of_endsPunct (l : List Char) (h : endsPunct l = true) :
    (reScan [] [] l).2.2 ≠ [] := by
  rcases hl : l.getLast? with _ | c
  · simp [endsPunct, hl] at h
  · obtain ⟨l', rfl⟩ := List.getLast?_eq_some_iff.mp hl
    have hp : isSentEnd c = true := by
      simpa [endsPunct, hl] using h
    have := reScan_append l' [c] [] []
    have h2 := congrArg (fun x => x.2.2) this
    simp only [reScan, hp, if_true] at h2
    simp [h2]

/-- A buffer ending with a newline leaves an empty scan state (both the
pending text and the pending run are flushed by the newline). -/
theorem reScan_state_of_endsNewline (l : List Char) (h : l.getLast? = some '\n') :
    (reScan [] [] l).2.1 = [] ∧ (reScan [] [] l).2.2 = [] := by
  obtain ⟨l', rfl⟩ := List.getLast?_eq_some_iff.mp h
  have := reScan_append l' ['\n'] [] []
  have h2 := congrArg (fun x => x.2) this
  have hn : isSentEnd '\n' = false := by decide
  cases hrun : (reScan [] [] l').2.2 with
  | nil =>
    simp only [reScan, hn, hrun, if_false, Bool.false_eq_true] at h2
    simp at h2
    simp [h2]
  | cons r rs =>
    simp only [reScan, hn, hrun, if_false, Bool.false_eq_true] at h2
    simp at h2
    simp [h2]

/-! ## Strip lemmas -/

/-- Dropping a prefix by a predicate keeps a last element that fails it. -/
theorem dropWhile_getLast? (p : Char → Bool) (l : List Char) (c : Char)
    (h : l.getLast? = some c) (hc : p c = false) :
    (l.dropWhile p).getLast? = some c := by
  induction l with
  | nil => simp at h
  | cons a t ih =>
    cases t with
    | nil =>
      simp only [List.getLast?_singleton, Option.some.injEq] at h
      subst h
      simp [List.dropWhile, hc]
    | cons b t' =>
      rw [List.getLast?_cons_cons] at h
      by_cases ha : p a = true
      · simpa [List.dropWhile, ha] using ih h
      · simp only [Bool.not_eq_true] at ha
        simp [List.dropWhile, ha, List.getLast?_cons_cons, h]

/-- Stripping keeps a non-whitespace last character, and in particular
produces a non-empty result. -/
theorem pyStripL_getLast (l : List Char) (c : Char) (h : l.getLast? = some c)
    (hc : pyIsSpace c = false) :
    pyStripL l ≠ [] ∧ (pyStripL l).getLast? = some c := by
  have h1 : (l.dropWhile pyIsSpace).getLast? = some c :=
    dropWhile_getLast? pyIsSpace l c h hc
  have h2 : ((l.dropWhile pyIsSpace).reverse).head? = some c := by
    rw [List.head?_reverse]; exact h1
  obtain ⟨t, ht⟩ : ∃ t, (l.dropWhile pyIsSpace).reverse = c :: t := by
    cases hx : (l.dropWhile pyIsSpace).reverse with
    | nil => rw [hx] at h2; simp at h2
    | cons a t => rw [hx] at h2; simp at h2; exact ⟨t, by rw [h2]⟩
  rw [pyStripL, ht]
  simp only [List.dropWhile_cons, hc, Bool.false_eq_true, if_false]
  constructor
  · simp
  · rw [← ht, List.reverse_reverse]
    exact h1

/-- Sentence punctuation is not whitespace. -/
theorem isSentEnd_not_space (c : Char) (h : isSentEnd c = true) :
    pyIsSpace c = false := by
  simp only [isSentEnd, Bool.or_eq_true, beq_iff_eq] at h
  rcases h with (rfl | rfl) | rfl <;> decide

/-! ## Shape of the emitted parts -/

/-- The parts emitted by the scan alternate (text, delimiter) pairs. -/
theorem reScan_pairsWF (l : List Char) : ∀ cur run, AllPunct run →
    PairsWF (reScan cur run l).1 := by
  induction l with
  | nil => intro cur run _; simp only [reScan]; exact PairsWF.nil
  | cons c cs ih =>
    intro cur run hrun
    cases h : isSentEnd c with
    | true =>
      have : AllPunct (c :: run) := by
        intro d hd
        rcases List.mem_cons.mp hd with rfl | hd
        · exact h
        · exact hrun d hd
      simpa [reScan, h] using ih cur (c :: run) this
    | false =>
      cases run with
      | nil =>
        by_cases hc : c = '\n'
        · subst hc
          simp only [reScan, h, Bool.false_eq_true, if_false]
          exact PairsWF.pair _ _ _ (Or.inr rfl) (ih [] [] (by simp [AllPunct]))
        · simpa [reScan, h, hc] using ih (c :: cur) [] (by simp [AllPunct])
      | cons r rs =>
        have hrev : IsDelimRun (r :: rs).reverse := by
          refine Or.inl ⟨by simp, ?_⟩
          intro d hd
          exact hrun d (List.mem_reverse.mp hd)
        by_cases hc : c = '\n'
        · subst hc
          simp only [reScan, h, Bool.false_eq_true, if_false]
          exact PairsWF.pair _ _ _ hrev
            (PairsWF.pair _ _ _ (Or.inr rfl) (ih [] [] (by simp [AllPunct])))
        · have hgoal : (reScan cur (r :: rs) (c :: cs)).1
              = cur.reverse :: (r :: rs).reverse :: (reScan [c] [] cs).1 := by
            simp [reScan, h, hc]
          rw [hgoal]
          exact PairsWF.pair _ _ _ hrev (ih [c] [] (by simp [AllPunct]))

/-- Every piece of a well-formed pair list is a text followed by a captured
delimiter. -/
theorem piecesOfParts_shape {parts : List (List Char)} (h : PairsWF parts) :
    ∀ p ∈ piecesOfParts parts, ∃ t e, p = t ++ e ∧ IsDelimRun e := by
  induction h with
  | nil => intro p hp; simp [piecesOfParts] at hp
  | pair t e rest he _ ih =>
    intro p hp
    rcases List.mem_cons.mp (by simpa [piecesOfParts] using hp) with rfl | hp
    · exact ⟨t, e, rfl, he⟩
    · exact ih p hp

/-- Every piece of the full `re.split` of a buffer ends in a captured
delimiter. -/
theorem piecesOf_reSplit_shape (l : List Char) :
    ∀ p ∈ piecesOfParts (reSplit l), ∃ t e, p = t ++ e ∧ IsDelimRun e := by
  intro p hp
  have hev := reScan_fst_length_even l [] []
  rw [reSplit, piecesOfParts_append _ _ hev] at hp
  rcases List.mem_append.mp hp with hp | hp
  · exact piecesOfParts_shape (reScan_pairsWF l [] [] (by simp [AllPunct])) p hp
  · cases hr : (reScan [] [] l).2.2 with
    | nil =>
      rw [hr] at hp
      simp [reFlush, piecesOfParts] at hp
    | cons r rs =>
      rw [hr] at hp
      simp only [reFlush, piecesOfParts, List.mem_singleton] at hp
      subst hp
      refine ⟨(reScan [] [] l).2.1.reverse, (r :: rs).reverse, rfl, Or.inl ⟨by simp, ?_⟩⟩
      intro d hd
      have hall := reScan_run_allPunct l [] [] (by simp [AllPunct])
      rw [hr] at hall
      exact hall d (List.mem_reverse.mp hd)

/-! ## Claims C10, C3, C4 -/

/-- C10: for every buffer, the remainder returned by split is a verbatim
(untrimmed) suffix of the input buffer and contains no occurrence of `.`,
`!`, `?`, or newline. -/
theorem claim_C10_remainder_suffix_noDelim (B : String) :
    (split_into_speakable_chunks B).2.data <:+ B.data
    ∧ NoDelim (split_into_speakable_chunks B).2.data := by
  constructor
  · exact ⟨(piecesOfParts (reSplit B.data)).flatten, splitChars_reconstruct B.data⟩
  · show NoDelim (splitChars B.data).2
    cases hr : (reScan [] [] B.data).2.2 with
    | nil =>
      simp only [splitChars, remainderOfParts_reSplit_run_nil B.data hr]
      intro d hd
      exact reScan_cur_noDelim B.data [] [] (by simp [NoDelim]) d
        (List.mem_reverse.mp hd)
    | cons r rs =>
      simp only [splitChars,
        remainderOfParts_reSplit_run_cons B.data (by simp [hr])]
      simp [NoDelim]

/-- Counterexample to C3 as stated: the buffer `"Hello\n"` produces the chunk
`"Hello"`, whose last character is `'o'` — not `.`, `!`, `?`, or a newline
(the newline delimiter was trimmed away with the surrounding whitespace). -/
theorem claim_C3_counterexample :
    (split_into_speakable_chunks "Hello\n").1 = ["Hello"]
    ∧ "Hello".data.getLast? = some 'o'
    ∧ isSentEnd 'o' = false ∧ 'o' ≠ '\n' := by
  refine ⟨by decide, by decide, by decide, by decide⟩

/-- C3 (amended): every chunk returned by split is non-empty, and either ends
with a sentence-punctuation character `.`, `!`, `?`, or is the trim of a piece
whose delimiter was a newline (the trim may then remove the newline, leaving
the chunk ending in an arbitrary non-whitespace character). -/
theorem claim_C3_amended_chunk_boundaries (B : String) (c : List Char)
    (hc : c ∈ (splitChars B.data).1) :
    c ≠ [] ∧
      ((∃ d, c.getLast? = some d ∧ isSentEnd d = true) ∨
        (∃ p ∈ piecesOfParts (reSplit B.data),
          c = pyStripL p ∧ p.getLast? = some '\n')) := by
  rw [splitChars] at hc
  simp only at hc
  rw [chunksOfParts_eq_filter] at hc
  obtain ⟨hmem, hne⟩ := List.mem_filter.mp hc
  have hne' : c ≠ [] := by simpa using hne
  obtain ⟨p, hp, rfl⟩ := List.mem_map.mp hmem
  obtain ⟨t, e, rfl, hde⟩ := piecesOf_reSplit_shape B.data p hp
  refine ⟨hne', ?_⟩
  rcases hde with ⟨hene, hall⟩ | rfl
  · left
    obtain ⟨d, hd⟩ : ∃ d, e.getLast? = some d := by
      cases e with
      | nil => exact absurd rfl hene
      | cons a t' => exact ⟨(a :: t').getLast (by simp), List.getLast?_eq_getLast _ _⟩
    have hdp : isSentEnd d = true := hall d (List.mem_of_mem_getLast? hd)
    have hlast : (t ++ e).getLast? = some d := by
      rw [List.getLast?_append, hd]; rfl
    exact ⟨d, (pyStripL_getLast _ d hlast (isSentEnd_not_space d hdp)).2, hdp⟩
  · right
    exact ⟨t ++ ['\n'], hp, rfl, List.getLast?_concat t⟩

/-- Witness for the amended C3 at a concrete input: the chunk `"Hi."` of the
buffer `"Hi. "` is non-empty and ends with sentence punctuation. -/
theorem claim_C3_amended_witness :
    ['H', 'i', '.'] ∈ (splitChars "Hi. ".data).1
    ∧ (['H', 'i', '.'] ≠ [] ∧
      ((∃ d, ['H', 'i', '.'].getLast? = some d ∧ isSentEnd d = true) ∨
        (∃ p ∈ piecesOfParts (reSplit "Hi. ".data),
          ['H', 'i', '.'] = pyStripL p ∧ p.getLast? = some '\n'))) :=
  ⟨by decide, claim_C3_amended_chunk_boundaries "Hi. " ['H', 'i', '.'] (by decide)⟩

/-- Counterexample to C4 as stated: the buffer `"\n"` ends exactly on a
delimiter, but the last piece is NOT emitted as a chunk — the chunk list is
empty, because the piece strips to the empty string. -/
theorem claim_C4_counterexample :
    endsDelim "\n".data = true ∧ (split_into_speakable_chunks "\n").1 = [] := by
  refine ⟨by decide, by decide⟩

/-- C4 (amended): split("") = ([], ""); a buffer with no delimiter character
is returned unchanged as the remainder with no chunks; a buffer ending
exactly on a delimiter has remainder "" — and when that final delimiter is
sentence punctuation the last piece is always emitted (the chunk list is
non-empty and its last chunk ends with sentence punctuation), while an
all-whitespace final piece ending in a newline is dropped; and
split("Hello. World") = (["Hello."], " World") with the remainder's leading
space preserved. -/
theorem claim_C4_amended_edge_cases :
    split_into_speakable_chunks "" = ([], "")
    ∧ (∀ B : String, NoDelim B.data → split_into_speakable_chunks B = ([], B))
    ∧ (∀ B : String, endsDelim B.data = true →
        (split_into_speakable_chunks B).2 = "")
    ∧ (∀ B : String, endsPunct B.data = true →
        (splitChars B.data).1 ≠ [] ∧
        ∃ ch d, (splitChars B.data).1.getLast? = some ch ∧
          ch.getLast? = some d ∧ isSentEnd d = true)
    ∧ split_into_speakable_chunks "Hello. World" = (["Hello."], " World") := by
  refine ⟨by decide, ?_, ?_, ?_, by decide⟩
  · intro B hB
    have hscan := reScan_noDelim_input B.data [] hB
    simp only [List.append_nil] at hscan
    have hsplit : reSplit B.data = [B.data] := by
      simp [reSplit, hscan, reFlush]
    rw [split_into_speakable_chunks]
    simp [splitChars, hsplit, chunksOfParts, remainderOfParts]
  · intro B hB
    rcases hl : B.data.getLast? with _ | c
    · simp [endsDelim, hl] at hB
    · have hB' : isSentEnd c || c == '\n' := by simpa [endsDelim, hl] using hB
      rw [split_into_speakable_chunks]
      cases hp : isSentEnd c with
      | true =>
        have hrun : (reScan [] [] B.data).2.2 ≠ [] :=
          reScan_run_of_endsPunct B.data (by simp [endsPunct, hl, hp])
        simp [splitChars, remainderOfParts_reSplit_run_cons B.data hrun]
      | false =>
        have hcn : c = '\n' := by simpa [hp] using hB'
        subst hcn
        obtain ⟨hcur, hrun⟩ := reScan_state_of_endsNewline B.data hl
        simp [splitChars, remainderOfParts_reSplit_run_nil B.data hrun, hcur]
  · intro B hB
    have hrun := reScan_run_of_endsPunct B.data hB
    obtain ⟨r, rs, hr⟩ : ∃ r rs, (reScan [] [] B.data).2.2 = r :: rs := by
      cases hx : (reScan [] [] B.data).2.2 with
      | nil => exact absurd hx hrun
      | cons r rs => exact ⟨r, rs, rfl⟩
    have hev := reScan_fst_length_even B.data [] []
    have hall := reScan_run_allPunct B.data [] [] (by simp [AllPunct])
    rw [hr] at hall
    have hpr : isSentEnd r = true := hall r (by simp)
    have hlastpiece :
        ((reScan [] [] B.data).2.1.reverse ++ (r :: rs).reverse).getLast?
          = some r := by
      rw [List.reverse_cons, ← List.append_assoc]
      exact List.getLast?_concat _
    obtain ⟨hsne, hslast⟩ :=
      pyStripL_getLast _ r hlastpiece (isSentEnd_not_space r hpr)
    have hchunks : (splitChars B.data).1
        = chunksOfParts (reScan [] [] B.data).1
          ++ [pyStripL ((reScan [] [] B.data).2.1.reverse ++ (r :: rs).reverse)] := by
      simp only [splitChars, reSplit, hr, reFlush,
        chunksOfParts_append _ _ hev]
      simp only [chunksOfParts, if_neg hsne]
    refine ⟨by simp [hchunks], ?_⟩
    exact ⟨_, r, by rw [hchunks, List.getLast?_concat], hslast, hpr⟩

/-- Witness for the amended C4 at concrete inputs: a delimiter-free buffer is
returned unchanged, and a buffer ending in punctuation emits its last piece. -/
theorem claim_C4_amended_witness :
    (NoDelim "Hello world".data
      ∧ split_into_speakable_chunks "Hello world" = ([], "Hello world"))
    ∧ (endsDelim "Hi.".data = true ∧ (split_into_speakable_chunks "Hi.").2 = "") :=
  ⟨⟨by decide, claim_C4_amended_edge_cases.2.1 "Hello world" (by decide)⟩,
   ⟨by decide, claim_C4_amended_edge_cases.2.2.1 "Hi." (by decide)⟩⟩

/-! ## Composition of split over concatenation (incremental feeding) -/

/-- Splitting the empty buffer. -/
theorem splitChars_nil : splitChars [] = ([], []) := by decide

/-- The remainder selection ignores an even-length prefix of parts. -/
theorem remainderOfParts_append (A B : List (List Char))
    (hA : A.length % 2 = 0) (hB : B.length % 2 = 1) (hBne : B ≠ []) :
    remainderOfParts (A ++ B) = remainderOfParts B := by
  obtain ⟨b, hb⟩ : ∃ b, B.getLast? = some b := by
    cases B with
    | nil => exact absurd rfl hBne
    | cons a t => exact ⟨(a :: t).getLast (by simp), List.getLast?_eq_getLast _ _⟩
  have h1 : (A ++ B).length % 2 = 1 := by
    simp only [List.length_append]; omega
  rw [remainderOfParts, remainderOfParts, if_pos h1, if_pos hB,
    List.getLast?_append, hb]
  rfl

/-- Processing a non-punctuation character with a pending punctuation run
emits the pending pair and continues exactly like a fresh scan. -/
theorem reScan_pending_step (cur : List Char) (r d : Char) (rs ys : List Char)
    (hd : isSentEnd d = false) :
    reScan cur (r :: rs) (d :: ys)
      = (cur.reverse :: (r :: rs).reverse :: (reScan [] [] (d :: ys)).1,
         (reScan [] [] (d :: ys)).2) := by
  by_cases hdn : d = '\n'
  · subst hdn
    simp [reScan, hd]
  · simp [reScan, hd, hdn]

/-- A trailing empty part beyond the last pair does not change the chunks. -/
theorem chunksOfParts_pair_trailing (a b : List Char) :
    chunksOfParts [a, b, []] = chunksOfParts [a, b] := by
  by_cases hs : pyStripL (a ++ b) = [] <;> simp [chunksOfParts, hs]

/-- Compositionality of split: as long as the boundary does not cut a maximal
punctuation run (the left part ending and the right part starting with `.!?`),
splitting `x ++ y` is the same as splitting `x` and then splitting its
remainder concatenated with `y`. -/
theorem splitChars_compose (x y : List Char)
    (h : ¬(endsPunct x = true ∧ startsPunct y = true)) :
    (splitChars (x ++ y)).1
        = (splitChars x).1 ++ (splitChars ((splitChars x).2 ++ y)).1
    ∧ (splitChars (x ++ y)).2 = (splitChars ((splitChars x).2 ++ y)).2 := by
  have hev := reScan_fst_length_even x [] []
  cases hr : (reScan [] [] x).2.2 with
  | nil =>
    have hremx : (splitChars x).2 = (reScan [] [] x).2.1.reverse := by
      simp [splitChars, remainderOfParts_reSplit_run_nil x hr]
    have hnd : NoDelim ((reScan [] [] x).2.1.reverse) := by
      intro d hd
      exact reScan_cur_noDelim x [] [] (by simp [NoDelim]) d
        (List.mem_reverse.mp hd)
    have hscanR : reScan [] [] ((reScan [] [] x).2.1.reverse)
        = ([], (reScan [] [] x).2.1, []) := by
      have := reScan_noDelim_input ((reScan [] [] x).2.1.reverse) [] hnd
      simpa [List.reverse_reverse] using this
    have hRy : reScan [] [] ((reScan [] [] x).2.1.reverse ++ y)
        = ((reScan (reScan [] [] x).2.1 [] y).1,
           (reScan (reScan [] [] x).2.1 [] y).2) := by
      rw [reScan_append, hscanR]
      simp
    have hxy : reScan [] [] (x ++ y)
        = ((reScan [] [] x).1 ++ (reScan (reScan [] [] x).2.1 [] y).1,
           (reScan (reScan [] [] x).2.1 [] y).2) := by
      rw [reScan_append, hr]
    have hsplitxy : reSplit (x ++ y)
        = (reScan [] [] x).1 ++ reSplit ((reScan [] [] x).2.1.reverse ++ y) := by
      rw [reSplit, reSplit, hxy, hRy]
      simp [List.append_assoc]
    have hchx : (splitChars x).1 = chunksOfParts (reScan [] [] x).1 := by
      simp only [splitChars, reSplit, hr, reFlush]
      rw [chunksOfParts_append _ _ hev]
      simp [chunksOfParts]
    have codd := reSplit_length_odd ((reScan [] [] x).2.1.reverse ++ y)
    have cne : reSplit ((reScan [] [] x).2.1.reverse ++ y) ≠ [] := by
      intro hnil
      rw [hnil] at codd
      simp at codd
    constructor
    · show chunksOfParts (reSplit (x ++ y)) = _
      rw [hsplitxy, chunksOfParts_append _ _ hev, hremx, hchx]
      rfl
    · show remainderOfParts (reSplit (x ++ y)) = _
      rw [hsplitxy, remainderOfParts_append _ _ hev codd cne, hremx]
      rfl
  | cons r rs =>
    have hx_ne : x ≠ [] := by
      intro hxe
      rw [hxe] at hr
      simp [reScan] at hr
    have hep : endsPunct x = true := by
      obtain ⟨c, hc, hpc⟩ :=
        reScan_endsPunct_of_run x [] [] hx_ne (by simp [hr])
      simp [endsPunct, hc, hpc]
    have hsp : startsPunct y = false := by
      cases hy : startsPunct y with
      | false => rfl
      | true => exact absurd ⟨hep, hy⟩ h
    have hremx : (splitChars x).2 = [] := by
      simp [splitChars, remainderOfParts_reSplit_run_cons x (by simp [hr])]
    cases y with
    | nil =>
      rw [hremx]
      refine ⟨?_, ?_⟩
      · simp [splitChars_nil]
      · simp only [List.append_nil]
        rw [hremx]
        rfl
    | cons d ys =>
      have hd : isSentEnd d = false := by
        simpa [startsPunct] using hsp
      have hxy : reScan [] [] (x ++ d :: ys)
          = ((reScan [] [] x).1 ++
              ((reScan [] [] x).2.1.reverse :: (r :: rs).reverse ::
                (reScan [] [] (d :: ys)).1),
             (reScan [] [] (d :: ys)).2) := by
        rw [reScan_append, hr, reScan_pending_step _ _ _ _ _ hd]
      have hsplitxy : reSplit (x ++ d :: ys)
          = ((reScan [] [] x).1 ++
              [(reScan [] [] x).2.1.reverse, (r :: rs).reverse])
            ++ reSplit (d :: ys) := by
        rw [reSplit, reSplit, hxy]
        simp [List.append_assoc]
      have hevx2 : ((reScan [] [] x).1 ++
          [(reScan [] [] x).2.1.reverse, (r :: rs).reverse]).length % 2 = 0 := by
        simp only [List.length_append, List.length_cons, List.length_nil]
        omega
      have hchx : (splitChars x).1
          = chunksOfParts ((reScan [] [] x).1 ++
              [(reScan [] [] x).2.1.reverse, (r :: rs).reverse]) := by
        simp only [splitChars, reSplit, hr, reFlush]
        rw [chunksOfParts_append _ _ hev, chunksOfParts_append _ _ hev,
          chunksOfParts_pair_trailing]
      have codd := reSplit_length_odd (d :: ys)
      have cne : reSplit (d :: ys) ≠ [] := by
        intro hnil
        rw [hnil] at codd
        simp at codd
      constructor
      · show chunksOfParts (reSplit (x ++ d :: ys)) = _
        rw [hsplitxy, chunksOfParts_append _ _ hevx2, hremx, hchx]
        rfl
      · show remainderOfParts (reSplit (x ++ d :: ys)) = _
        rw [hsplitxy, remainderOfParts_append _ _ hevx2 codd cne, hremx]
        rfl

/-- Folding the caller protocol from any already-split prefix equals splitting
the whole concatenation, provided every seam respects punctuation runs. -/
theorem feed_foldl (toks : List (List Char)) : ∀ pre : List Char,
    seamsOK pre toks = true →
    toks.foldl feedOne (splitChars pre) = splitChars (pre ++ toks.flatten) := by
  induction toks with
  | nil => intro pre _; simp
  | cons t ts ih =>
    intro pre hseams
    rw [seamsOK, Bool.and_eq_true] at hseams
    obtain ⟨hb, hrest⟩ := hseams
    have hcomp := splitChars_compose pre t (by
      intro ⟨h1, h2⟩
      rw [h1, h2] at hb
      simp at hb)
    have hstep : feedOne (splitChars pre) t = splitChars (pre ++ t) := by
      rw [feedOne, ← hcomp.1, ← hcomp.2]
    rw [List.foldl_cons, hstep, ih (pre ++ t) hrest]
    simp [List.append_assoc]

/-- Counterexample to C2 as stated: the partition `["Hi.", "."]` of the buffer
`"Hi.."` splits the maximal punctuation run `".."` across two calls; feeding
incrementally emits the chunks `["Hi.", "."]` while the batch split of the
whole buffer emits the single chunk `["Hi.."]`. -/
theorem claim_C2_counterexample :
    "Hi.".data ++ ".".data = "Hi..".data
    ∧ feedTokens ["Hi.".data, ".".data] = ([['H', 'i', '.'], ['.']], [])
    ∧ splitChars "Hi..".data = ([['H', 'i', '.', '.']], [])
    ∧ feedTokens ["Hi.".data, ".".data]
        ≠ splitChars ("Hi.".data ++ ".".data) := by
  refine ⟨by decide, by decide, by decide, by decide⟩

/-- C2 (amended): feeding a buffer token by token (each call splitting the
previous remainder concatenated with the new token) and concatenating all
chunks emitted across all calls, plus the final remainder, equals the result
of one split of the whole buffer — provided no token boundary falls inside a
maximal run of sentence punctuation (the text accumulated so far ending with
`.!?` while the next token starts with `.!?`).  In particular no chunk already
returned is re-emitted as the buffer grows. -/
theorem claim_C2_amended_incremental_eq_batch (toks : List (List Char))
    (hseams : seamsOK [] toks = true) :
    feedTokens toks = splitChars toks.flatten := by
  have h := feed_foldl toks [] hseams
  rw [splitChars_nil] at h
  simpa [feedTokens] using h

/-- Witness for the amended C2 at a concrete partition: `["Hi.", " ok"]`
respects punctuation runs and feeds incrementally to the batch result. -/
theorem claim_C2_amended_witness :
    seamsOK [] [['H', 'i', '.'], [' ', 'o', 'k']] = true
    ∧ feedTokens [['H', 'i', '.'], [' ', 'o', 'k']]
        = splitChars (List.flatten [['H', 'i', '.'], [' ', 'o', 'k']]) :=
  ⟨by decide, claim_C2_amended_incremental_eq_batch _ (by decide)⟩

/-! ## Synthesis Adapter lemmas -/

/-- Looking a key up after filtering out every entry with that key misses. -/
theorem lookup_filter_ne (L : String) (ps : List (String × Nat)) :
    List.lookup L (ps.filter (fun p => p.1 ≠ L)) = none := by
  induction ps with
  | nil => rfl
  | cons kv t ih =>
    by_cases hk : kv.1 = L
    · simp only [List.filter_cons, decide_eq_true_eq]
      rw [if_neg (by simp [hk])]
      exact ih
    · simp only [List.filter_cons, decide_eq_true_eq]
      rw [if_pos hk]
      have hbeq : (L == kv.1) = false := beq_eq_false_iff_ne.mpr (Ne.symm hk)
      simp only [List.lookup, hbeq]
      exact ih

/-- `get_pipeline` does not touch the call log. -/
theorem get_pipeline_calls (L : String) (st : ServerState) :
    (get_pipeline L st).2.calls = st.calls := by
  rw [get_pipeline]
  cases st.pipelines.lookup L <;> rfl

/-- `get_pipeline` does not touch the eviction count. -/
theorem get_pipeline_evictions (L : String) (st : ServerState) :
    (get_pipeline L st).2.evictions = st.evictions := by
  rw [get_pipeline]
  cases st.pipelines.lookup L <;> rfl

/-- After `get_pipeline`, the returned pipeline is cached for the language. -/
theorem get_pipeline_lookup (L : String) (st : ServerState) :
    (get_pipeline L st).2.pipelines.lookup L = some (get_pipeline L st).1 := by
  rw [get_pipeline]
  cases h : st.pipelines.lookup L with
  | none => simp [List.lookup]
  | some p => simpa using h

/-- `get_pipeline` bumps the id source exactly when the cache misses. -/
theorem get_pipeline_nextId (L : String) (st : ServerState) :
    (get_pipeline L st).2.nextId
      = if (st.pipelines.lookup L).isSome then st.nextId else st.nextId + 1 := by
  rw [get_pipeline]
  cases st.pipelines.lookup L <;> rfl

/-- A failing engine invocation makes the attempt fail with the captured
cause, logging exactly one engine call. -/
theorem attemptSynthesis_fail (engine : EngineOracle) (L v txt : String)
    (st : ServerState) (hf : engineCallFails engine st.calls.length) :
    attemptSynthesis engine L v txt st
      = (.error (engineFailureOf engine st.calls.length),
         { (get_pipeline L st).2 with
             calls := (get_pipeline L st).2.calls ++ [((get_pipeline L st).1, v, txt)] }) := by
  rw [attemptSynthesis]
  rw [engineCallFails] at hf
  cases he : engine st.calls.length with
  | error msg =>
    rw [engineFailureOf, get_pipeline_calls, he]
  | ok segs =>
    rw [he] at hf
    simp only at hf
    rw [engineFailureOf, get_pipeline_calls, he]
    simp only [hf]
    simp

/-- A successful, non-empty engine invocation makes the attempt succeed. -/
theorem attemptSynthesis_ok (engine : EngineOracle) (L v txt : String)
    (st : ServerState) (segs : List Audio)
    (he : engine st.calls.length = .ok segs)
    (hne : segs.filter (fun a => a ≠ []) ≠ []) :
    attemptSynthesis engine L v txt st
      = (.ok (segs.filter (fun a => a ≠ [])).flatten,
         { (get_pipeline L st).2 with
             calls := (get_pipeline L st).2.calls ++ [((get_pipeline L st).1, v, txt)] }) := by
  rw [attemptSynthesis, get_pipeline_calls, he]
  simp only [if_neg hne]

/-- `pipelines.pop` never touches the call log. -/
theorem popPipeline_calls (L : String) (st : ServerState) :
    (popPipeline L st).calls = st.calls := by
  rw [popPipeline]
  split <;> rfl

/-- `pipelines.pop` never touches the id source. -/
theorem popPipeline_nextId (L : String) (st : ServerState) :
    (popPipeline L st).nextId = st.nextId := by
  rw [popPipeline]
  split <;> rfl

/-- After popping, the language has no cached pipeline. -/
theorem popPipeline_lookup_none (L : String) (st : ServerState) :
    (popPipeline L st).pipelines.lookup L = none := by
  rw [popPipeline]
  cases h : (st.pipelines.lookup L).isSome with
  | true => simpa using lookup_filter_ne L st.pipelines
  | false =>
    simp only [Bool.false_eq_true, if_false]
    exact Option.not_isSome_iff_eq_none.mp (by simp [h])

/-- Variant of the filtered-lookup lemma in the Boolean-negation normal form
that `simp` produces for the filter predicate. -/
theorem lookup_filter_not (L : String) (ps : List (String × Nat)) :
    List.lookup L (ps.filter (fun p => !decide (p.1 = L))) = none := by
  have heq : (fun (p : String × Nat) => decide (p.1 ≠ L))
      = (fun p => !decide (p.1 = L)) := by
    funext p
    simp [decide_not]
  have h := lookup_filter_ne L ps
  rw [heq] at h
  exact h

/-- Counterexample to C5 as stated: with a cached pipeline for language "a"
and an engine failing twice with distinct errors, `synthesize_audio` pops the
cache entry after EACH failed attempt — two evictions, not one — and the
surfaced `SynthesisFailed` carries the second failure "boom1" as its cause,
not the original "boom0". -/
theorem claim_C5_counterexample :
    synthesize_audio [("af_nicole", "a")] "af_nicole"
        (fun i => .error (if i = 0 then "boom0" else "boom1")) "hi" none
        ⟨[("a", 0)], 1, [], 0⟩
      = (.error (.synthesisFailed (.engineError "boom1")),
         ⟨[], 2, [(0, "af_nicole", "hi"), (1, "af_nicole", "hi")], 2⟩)
    ∧ (2 : Nat) ≠ 1
    ∧ EngineFailure.engineError "boom1" ≠ .engineError "boom0" := by
  refine ⟨by rfl, by decide, by decide⟩

/-- C5 (amended): for every synthesis request whose engine call fails, exactly
one retry is attempted, with a freshly created pipeline (the retry's engine
call runs on pipeline id `nextId`, which is then consumed); if the engine
fails twice in a row for the same request, synthesize surfaces
`SynthesisFailed` with the SECOND (most recent) failure attached as cause,
and the cached pipeline entry for that language is evicted twice — once after
each failed attempt (the retry re-creates and re-caches it in between) —
leaving no cached pipeline for that language. -/
theorem claim_C5_amended_double_failure
    (catalog : List (String × String)) (default : String) (engine : EngineOracle)
    (text : String) (req : Option String) (st : ServerState) (v L : String)
    (hv : get_voice_info catalog default req = .ok (v, L))
    (ht : pyStripS text ≠ "")
    (hf0 : engineCallFails engine st.calls.length)
    (hf1 : engineCallFails engine (st.calls.length + 1)) :
    (synthesize_audio catalog default engine text req st).1
        = .error (.synthesisFailed (engineFailureOf engine (st.calls.length + 1)))
    ∧ (synthesize_audio catalog default engine text req st).2.calls
        = st.calls ++ [((get_pipeline L st).1, v, pyStripS text),
            ((get_pipeline L st).2.nextId, v, pyStripS text)]
    ∧ (synthesize_audio catalog default engine text req st).2.evictions
        = st.evictions + 2
    ∧ (synthesize_audio catalog default engine text req st).2.pipelines.lookup L
        = none
    ∧ (synthesize_audio catalog default engine text req st).2.nextId
        = (get_pipeline L st).2.nextId + 1 := by
  rw [engineCallFails] at hf0 hf1
  cases hl : st.pipelines.lookup L with
  | some p =>
    cases he0 : engine st.calls.length with
    | error m0 =>
      cases he1 : engine (st.calls.length + 1) with
      | error m1 =>
        refine ⟨?_, ?_, ?_, ?_, ?_⟩ <;>
          simp [synthesize_audio, hv, ht, attemptSynthesis, get_pipeline,
            popPipeline, engineFailureOf, hl, he0, he1, lookup_filter_ne,
            lookup_filter_not, List.lookup]
      | ok segs1 =>
        rw [he1] at hf1
        simp only at hf1
        have hf1c : ∀ a ∈ segs1, a = [] := by simpa using hf1
        refine ⟨?_, ?_, ?_, ?_, ?_⟩ <;>
          simp [synthesize_audio, hv, ht, attemptSynthesis, get_pipeline,
            popPipeline, engineFailureOf, hl, he0, he1, eq_true hf1c,
            lookup_filter_ne, lookup_filter_not, List.lookup]
    | ok segs0 =>
      rw [he0] at hf0
      simp only at hf0
      have hf0c : ∀ a ∈ segs0, a = [] := by simpa using hf0
      cases he1 : engine (st.calls.length + 1) with
      | error m1 =>
        refine ⟨?_, ?_, ?_, ?_, ?_⟩ <;>
          simp [synthesize_audio, hv, ht, attemptSynthesis, get_pipeline,
            popPipeline, engineFailureOf, hl, he0, he1, eq_true hf0c,
            lookup_filter_ne, lookup_filter_not, List.lookup]
      | ok segs1 =>
        rw [he1] at hf1
        simp only at hf1
        have hf1c : ∀ a ∈ segs1, a = [] := by simpa using hf1
        refine ⟨?_, ?_, ?_, ?_, ?_⟩ <;>
          simp [synthesize_audio, hv, ht, attemptSynthesis, get_pipeline,
            popPipeline, engineFailureOf, hl, he0, he1, eq_true hf0c,
            eq_true hf1c, lookup_filter_ne, lookup_filter_not, List.lookup]
  | none =>
    cases he0 : engine st.calls.length with
    | error m0 =>
      cases he1 : engine (st.calls.length + 1) with
      | error m1 =>
        refine ⟨?_, ?_, ?_, ?_, ?_⟩ <;>
          simp [synthesize_audio, hv, ht, attemptSynthesis, get_pipeline,
            popPipeline, engineFailureOf, hl, he0, he1, lookup_filter_ne,
            lookup_filter_not, List.lookup]
      | ok segs1 =>
        rw [he1] at hf1
        simp only at hf1
        have hf1c : ∀ a ∈ segs1, a = [] := by simpa using hf1
        refine ⟨?_, ?_, ?_, ?_, ?_⟩ <;>
          simp [synthesize_audio, hv, ht, attemptSynthesis, get_pipeline,
            popPipeline, engineFailureOf, hl, he0, he1, eq_true hf1c,
            lookup_filter_ne, lookup_filter_not, List.lookup]
    | ok segs0 =>
      rw [he0] at hf0
      simp only at hf0
      have hf0c : ∀ a ∈ segs0, a = [] := by simpa using hf0
      cases he1 : engine (st.calls.length + 1) with
      | error m1 =>
        refine ⟨?_, ?_, ?_, ?_, ?_⟩ <;>
          simp [synthesize_audio, hv, ht, attemptSynthesis, get_pipeline,
            popPipeline, engineFailureOf, hl, he0, he1, eq_true hf0c,
            lookup_filter_ne, lookup_filter_not, List.lookup]
      | ok segs1 =>
        rw [he1] at hf1
        simp only at hf1
        have hf1c : ∀ a ∈ segs1, a = [] := by simpa using hf1
        refine ⟨?_, ?_, ?_, ?_, ?_⟩ <;>
          simp [synthesize_audio, hv, ht, attemptSynthesis, get_pipeline,
            popPipeline, engineFailureOf, hl, he0, he1, eq_true hf0c,
            eq_true hf1c, lookup_filter_ne, lookup_filter_not, List.lookup]

/-- Witness for the amended C5 at a concrete double-failure run: both
attempts fail, two engine calls are logged, and the eviction count rises by
exactly two. -/
theorem claim_C5_amended_witness :
    get_voice_info [("af_nicole", "a")] "af_nicole" none = .ok ("af_nicole", "a")
    ∧ pyStripS "hi" ≠ ""
    ∧ engineCallFails (fun _ => Except.error "boom") 0
    ∧ (synthesize_audio [("af_nicole", "a")] "af_nicole"
          (fun _ => Except.error "boom") "hi" none ⟨[("a", 0)], 1, [], 0⟩).2.evictions
        = 0 + 2
    ∧ (synthesize_audio [("af_nicole", "a")] "af_nicole"
          (fun _ => Except.error "boom") "hi" none ⟨[("a", 0)], 1, [], 0⟩).1
        = .error (.synthesisFailed (.engineError "boom")) := by
  refine ⟨by rfl, by decide, by exact trivial, ?_, ?_⟩
  · exact (claim_C5_amended_double_failure [("af_nicole", "a")] "af_nicole"
      (fun _ => Except.error "boom") "hi" none ⟨[("a", 0)], 1, [], 0⟩
      "af_nicole" "a" rfl (by decide) (by exact trivial) (by exact trivial)).2.2.1
  · exact (claim_C5_amended_double_failure [("af_nicole", "a")] "af_nicole"
      (fun _ => Except.error "boom") "hi" none ⟨[("a", 0)], 1, [], 0⟩
      "af_nicole" "a" rfl (by decide) (by exact trivial) (by exact trivial)).1

/-- C6: for every voice name absent from the voice catalog, synthesize always
fails with `UnknownVoice` before any engine call or pipeline lookup/creation
is attempted (the state — pipeline cache, call log, evictions — is returned
untouched); and an explicitly requested non-empty name is resolved as itself
(stripped), never falling back to the default voice. -/
theorem claim_C6_unknown_voice_no_engine_call
    (catalog : List (String × String)) (default : String) (engine : EngineOracle)
    (text : String) (req : Option String) (st : ServerState)
    (h : catalog.lookup (resolve_requested_voice default req) = none) :
    synthesize_audio catalog default engine text req st
      = (.error (.unknownVoice (resolve_requested_voice default req)), st)
    ∧ (∀ v', req = some v' → v' ≠ "" →
        resolve_requested_voice default req = pyStripS v') := by
  constructor
  · simp [synthesize_audio, get_voice_info, h]
  · intro v' hreq hv'
    subst hreq
    simp [resolve_requested_voice, hv']

/-- Witness for C6 at a concrete input: the unknown voice "zz" is rejected
with the state unchanged. -/
theorem claim_C6_witness :
    List.lookup (resolve_requested_voice "af_nicole" (some "zz"))
        [("af_nicole", "a")] = none
    ∧ synthesize_audio [("af_nicole", "a")] "af_nicole"
        (fun _ => Except.error "x") "hi" (some "zz") ⟨[], 0, [], 0⟩
      = (.error (.unknownVoice (resolve_requested_voice "af_nicole" (some "zz"))),
         ⟨[], 0, [], 0⟩) :=
  ⟨by rfl,
   (claim_C6_unknown_voice_no_engine_call [("af_nicole", "a")] "af_nicole"
      (fun _ => Except.error "x") "hi" (some "zz") ⟨[], 0, [], 0⟩ (by rfl)).1⟩

/-- The synthesis worker on a queue of texts followed by the sentinel: failed
chunks are skipped, successful audio is forwarded in order, and the sentinel
is forwarded downstream. -/
theorem tts_worker_map_some (synth : String → Option Audio) (ts : List String) :
    tts_worker synth (ts.map some ++ [none])
      = (ts.filterMap synth).map some ++ [none] := by
  induction ts with
  | nil => simp [tts_worker]
  | cons t rest ih => cases hs : synth t <;> simp [tts_worker, hs, ih]

/-- The playback worker plays exactly the enqueued buffers, in order, and
stops at the sentinel. -/
theorem audio_player_map_some (as : List Audio) (rest : List (Option Audio)) :
    audio_player (as.map some ++ none :: rest) = as := by
  induction as with
  | nil => simp [audio_player]
  | cons a t ih => simp [audio_player, ih]

/-- C7: in streaming mode, when the Synthesis Adapter fails on a chunk, the
synthesis worker continues with the next dequeued item: the failed chunk
produces no audio (it is dropped from the output), every later chunk is still
processed, and the sentinel still reaches the playback worker — the pipeline
does not terminate. -/
theorem claim_C7_synthesis_failures_skipped (synth : String → Option Audio)
    (ts : List String) :
    tts_worker synth (ts.map some ++ [none])
      = (ts.filterMap synth).map some ++ [none] :=
  tts_worker_map_some synth ts

/-- C8: playback order equals enqueue order — the playback worker plays the
queued buffers one after the other exactly in queue order and stops on the
sentinel; composed with the single synthesis worker, the audio played is
exactly the synthesized chunks in original text order. -/
theorem claim_C8_playback_fifo_order (synth : String → Option Audio)
    (ts : List String) (as : List Audio) (rest : List (Option Audio)) :
    audio_player (as.map some ++ none :: rest) = as
    ∧ audio_player (tts_worker synth (ts.map some ++ [none]))
        = ts.filterMap synth := by
  refine ⟨audio_player_map_some as rest, ?_⟩
  rw [tts_worker_map_some]
  exact audio_player_map_some _ []

/-- A stream that raises before completing leaves the success flag false. -/
theorem stream_turn_failure (events : List StreamEvent) :
    ∀ full buffer spoken, (∃ m, StreamEvent.failure m ∈ events) →
    (stream_turn full buffer spoken events).2.2.2 = false := by
  induction events with
  | nil =>
    intro full buffer spoken h
    obtain ⟨m, hm⟩ := h
    simp at hm
  | cons e rest ih =>
    intro full buffer spoken h
    obtain ⟨m, hm⟩ := h
    cases e with
    | token t =>
      have : StreamEvent.failure m ∈ rest := by
        rcases List.mem_cons.mp hm with heq | h
        · exact absurd heq (by simp)
        · exact h
      exact ih _ _ _ ⟨m, this⟩
    | failure msg => rfl

/-- C9: when the chat backend call for a conversation turn fails (raises) at
any point, including mid-stream after some tokens have arrived, no assistant
message is appended: the message list after the turn is exactly the previous
list plus the already-appended user message. -/
theorem claim_C9_no_partial_assistant_message
    (messages : List (String × String)) (user : String)
    (events : List StreamEvent)
    (h : ∃ m, StreamEvent.failure m ∈ events) :
    (run_turn messages user events).1 = messages ++ [("user", user)] := by
  have hfalse : (stream_turn "" "" [] events).2.2.2 = false :=
    stream_turn_failure events "" "" [] h
  rw [run_turn]
  rcases hres : stream_turn "" "" [] events with ⟨f, b, s, ok⟩
  rw [hres] at hfalse
  simp only at hfalse
  subst hfalse
  rfl

/-- Witness for C9 at a concrete input: a stream that fails after one token
leaves only the user message recorded. -/
theorem claim_C9_witness :
    (∃ m, StreamEvent.failure m ∈ [StreamEvent.token "Hel",
        StreamEvent.failure "connection reset"])
    ∧ (run_turn [] "hi" [StreamEvent.token "Hel",
        StreamEvent.failure "connection reset"]).1 = [("user", "hi")] :=
  ⟨⟨"connection reset", by decide⟩,
   claim_C9_no_partial_assistant_message [] "hi" _
     ⟨"connection reset", by decide⟩⟩
